import Mathlib

/-!
Verification of the dicktaint repository: a shallow embedding of the
static HTTP server (server.js), the hotkey-combo parser and overlay pill
logic of the frontend, and the model-catalog recommendation ranking, with
theorems settling the specified properties.

JavaScript strings are modelled as Lean strings; the JS string methods the
source uses (trim, split, toLowerCase, toUpperCase, includes, replace of
leading slashes) are embedded as explicit functions over the character
list so that they can be both evaluated and reasoned about.
-/

namespace Dicktaint

/-! ### JS string primitives -/

/-- Whitespace characters recognised by the embedded JS trim. -/
def wsChar (c : Char) : Bool :=
  c == ' ' || c == '\t' || c == '\n' || c == '\r' || c == '\x0b' || c == '\x0c'

/-- Trim at the character-list level: drop whitespace from both ends. -/
def trimChars (l : List Char) : List Char :=
  ((l.dropWhile wsChar).reverse.dropWhile wsChar).reverse

/-- Embedded `String.prototype.trim`. -/
def jsTrim (s : String) : String :=
  String.mk (trimChars s.data)

/-- Split a character list at every occurrence of `sep`; `[]` input yields
one empty part, matching the JS `String.prototype.split` semantics. -/
def splitChars (sep : Char) : List Char → List (List Char)
  | [] => [[]]
  | c :: rest =>
    let r := splitChars sep rest
    if c = sep then [] :: r else (c :: r.headD []) :: r.tail

/-- Embedded `String.prototype.split` with a one-character separator. -/
def jsSplit (sep : Char) (s : String) : List String :=
  (splitChars sep s.data).map String.mk

/-- Embedded `String.prototype.toLowerCase` (ASCII). -/
def jsToLower (s : String) : String :=
  String.mk (s.data.map Char.toLower)

/-- Embedded `String.prototype.toUpperCase` (ASCII). -/
def jsToUpper (s : String) : String :=
  String.mk (s.data.map Char.toUpper)

/-- Is the first list a prefix of the second (Boolean, structural). -/
def isPrefixChars : List Char → List Char → Bool
  | [], _ => true
  | _ :: _, [] => false
  | a :: as, b :: bs => a == b && isPrefixChars as bs

/-- Does the second list occur contiguously inside the first argument. -/
def isInfixChars (needle : List Char) : List Char → Bool
  | [] => isPrefixChars needle []
  | c :: t => isPrefixChars needle (c :: t) || isInfixChars needle t

/-- Embedded `String.prototype.startsWith`. -/
def jsStartsWith (s pre : String) : Bool :=
  isPrefixChars pre.data s.data

/-- Embedded `String.prototype.includes`. -/
def jsIncludes (hay needle : String) : Bool :=
  isInfixChars needle.data hay.data

/-- Embedded `Array.prototype.join` with separator `+`. -/
def joinPlus : List String → String
  | [] => ""
  | [t] => t
  | t :: ts => t ++ "+" ++ joinPlus ts

/-! ### POSIX path functions used by server.js (path.normalize, path.join,
path.extname of the node `path` module, POSIX flavour) -/

/-- Resolve `.` and `..` segments the way node `path.normalize` does:
empty and `.` segments vanish; `..` pops the previous segment, is kept
when `allowAboveRoot` is set and nothing is left to pop, and is dropped
otherwise. `acc` holds already-emitted segments in reverse order. -/
def normSegs (allowAboveRoot : Bool) : List String → List String → List String
  | [], acc => acc.reverse
  | s :: rest, acc =>
    if s = "" ∨ s = "." then normSegs allowAboveRoot rest acc
    else if s = ".." then
      match acc with
      | [] => normSegs allowAboveRoot rest (if allowAboveRoot then [".."] else [])
      | a :: as =>
        if a = ".." then normSegs allowAboveRoot rest (".." :: a :: as)
        else normSegs allowAboveRoot rest as
    else normSegs allowAboveRoot rest (s :: acc)

/-- Join segments with `/`. -/
def joinSlash : List String → String
  | [] => ""
  | [t] => t
  | t :: ts => t ++ "/" ++ joinSlash ts

/-- Embedded `path.posix.normalize`. -/
def posixNormalize (p : String) : String :=
  if p = "" then "."
  else
    let isAbs := p.data.head? = some '/'
    let trailing := p.data.getLast? = some '/'
    let segs := normSegs (!isAbs) ((splitChars '/' p.data).map String.mk) []
    let core := joinSlash segs
    if core = "" then
      if isAbs then "/" else if trailing then "./" else "."
    else
      let withTrail := if trailing then core ++ "/" else core
      if isAbs then "/" ++ withTrail else withTrail

/-- Embedded two-argument `path.posix.join`. -/
def posixJoin (a b : String) : String :=
  if a = "" ∧ b = "" then "."
  else posixNormalize (if a = "" then b else if b = "" then a else a ++ "/" ++ b)

/-- Index of the last `.` in a character list, if any. -/
def lastDotIdx (l : List Char) : Option Nat :=
  match l.reverse.findIdx? (· = '.') with
  | none => none
  | some j => some (l.length - 1 - j)

/-- Embedded `path.posix.extname`: extension of the last path component,
empty for dotless names, names whose only dot is leading, and the special
component `..`. -/
def posixExtname (p : String) : String :=
  let stripped := (p.data.reverse.dropWhile (· = '/')).reverse
  let base := ((splitChars '/' stripped).map String.mk).getLastD ""
  if base = ".." then ""
  else
    match lastDotIdx base.data with
    | none => ""
    | some 0 => ""
    | some i => String.mk (base.data.drop i)

/-! ### decodeURIComponent -/

/-- Numeric value of a hexadecimal digit. -/
def hexVal (c : Char) : Option Nat :=
  if '0' ≤ c ∧ c ≤ '9' then some (c.toNat - 48)
  else if 'a' ≤ c ∧ c ≤ 'f' then some (c.toNat - 87)
  else if 'A' ≤ c ∧ c ≤ 'F' then some (c.toNat - 55)
  else none

/-- A percent-decoded item: an escaped byte or a literal character. -/
inductive PctItem where
  | byte (b : Nat)
  | chr (c : Char)

/-- First pass of decodeURIComponent: replace each `%XX` escape by the
byte it denotes; fail on a malformed escape. -/
def pctParse : List Char → Option (List PctItem)
  | [] => some []
  | '%' :: h :: l :: rest =>
    match hexVal h, hexVal l with
    | some a, some b => (pctParse rest).map (PctItem.byte (a * 16 + b) :: ·)
    | _, _ => none
  | '%' :: _ => none
  | c :: rest => (pctParse rest).map (PctItem.chr c :: ·)

/-- Is `b` a UTF-8 continuation byte. -/
def isCont (b : Nat) : Bool := 128 ≤ b ∧ b < 192

/-- Second pass of decodeURIComponent: interpret runs of escaped bytes as
strict UTF-8 (rejecting bad leads, bad continuations, overlong forms,
surrogates and out-of-range code points). -/
def utf8Fold : List PctItem → Option (List Char)
  | [] => some []
  | PctItem.chr c :: rest => (utf8Fold rest).map (c :: ·)
  | PctItem.byte b :: rest =>
    if b < 128 then (utf8Fold rest).map (Char.ofNat b :: ·)
    else if 194 ≤ b ∧ b ≤ 223 then
      match rest with
      | PctItem.byte b1 :: rest2 =>
        if isCont b1 then
          (utf8Fold rest2).map (Char.ofNat ((b - 192) * 64 + (b1 - 128)) :: ·)
        else none
      | _ => none
    else if 224 ≤ b ∧ b ≤ 239 then
      match rest with
      | PctItem.byte b1 :: PctItem.byte b2 :: rest2 =>
        if isCont b1 && isCont b2 then
          let cp := (b - 224) * 4096 + (b1 - 128) * 64 + (b2 - 128)
          if 2048 ≤ cp ∧ ¬(55296 ≤ cp ∧ cp ≤ 57343) then
            (utf8Fold rest2).map (Char.ofNat cp :: ·)
          else none
        else none
      | _ => none
    else if 240 ≤ b ∧ b ≤ 244 then
      match rest with
      | PctItem.byte b1 :: PctItem.byte b2 :: PctItem.byte b3 :: rest2 =>
        if isCont b1 && isCont b2 && isCont b3 then
          let cp := (b - 240) * 262144 + (b1 - 128) * 4096 + (b2 - 128) * 64 + (b3 - 128)
          if 65536 ≤ cp ∧ cp ≤ 1114111 then
            (utf8Fold rest2).map (Char.ofNat cp :: ·)
          else none
        else none
      | _ => none
    else none

/-- Embedded `decodeURIComponent`; `none` models the thrown `URIError`. -/
def decodeURIComponent (s : String) : Option String :=
  ((pctParse s.data).bind utf8Fold).map String.mk

/-! ### server.js -/

/-- Drop the leading run of slashes: the `replace` of a leading-slash run
in `safePublicPath`. -/
def dropLeadingSlashes (s : String) : String :=
  String.mk (s.data.dropWhile (· = '/'))

/-- Embedded `safePublicPath` of server.js. `Except.error` models the
`URIError` thrown by `decodeURIComponent` escaping the function; `ok none`
models the `null` return. -/
def safePublicPath (urlPath publicDir : String) : Except String (Option String) :=
  match decodeURIComponent ((jsSplit '?' urlPath).headD "") with
  | none => Except.error "URIError"
  | some decoded =>
    let normalized := dropLeadingSlashes (posixNormalize decoded)
    let resolved := posixJoin publicDir normalized
    if jsStartsWith resolved publicDir then Except.ok (some resolved)
    else Except.ok none

/-- Embedded `getContentType` of server.js. -/
def getContentType (filePath : String) : String :=
  let ext := jsToLower (posixExtname filePath)
  if ext = ".html" then "text/html; charset=utf-8"
  else if ext = ".css" then "text/css; charset=utf-8"
  else if ext = ".js" then "application/javascript; charset=utf-8"
  else if ext = ".json" then "application/json; charset=utf-8"
  else if ext = ".svg" then "image/svg+xml"
  else if ext = ".png" then "image/png"
  else if ext = ".jpg" ∨ ext = ".jpeg" then "image/jpeg"
  else "text/plain; charset=utf-8"

/-- The pathname of a request URL: everything before the query string,
defaulting to `/`, as computed twice in server.js. -/
def jsPathname (url : String) : String :=
  let p := (jsSplit '?' url).headD ""
  if p = "" then "/" else p

/-- Embedded `shouldServeSpaFallback` of server.js. -/
def shouldServeSpaFallback (accept url : String) : Bool :=
  jsIncludes accept "text/html" || (posixExtname (jsPathname url) == "")

/-- Outcome of a `fs.readFile` call: content, or an error code. -/
inductive ReadResult where
  | ok (content : String)
  | enoent
  | enotdir
  | fail

/-- An HTTP response as written by the server: status, content type, body. -/
structure Response where
  status : Nat
  contentType : String
  body : String
deriving DecidableEq, Repr

/-- The JSON body of the disabled-API response. -/
def apiDisabledBody : String :=
  "\x7b\"ok\":false,\"error\":\"No API routes are enabled in dictation-only mode.\"\x7d"

/-- Embedded `fs.readFile` callback of the request handler in server.js:
given the resolved target, produce the response and the list of paths
read from disk, in order. -/
def readFileCallback (fs : String → ReadResult) (publicDir url accept pathname target : String) :
    Response × List String :=
  match fs target with
  | ReadResult.ok content => (⟨200, getContentType target, content⟩, [target])
  | err =>
    if pathname ≠ "/" ∧ shouldServeSpaFallback accept url then
      let idx := posixJoin publicDir "index.html"
      match fs idx with
      | ReadResult.ok fallback =>
        (⟨200, "text/html; charset=utf-8", fallback⟩, [target, idx])
      | _ => (⟨404, "text/plain; charset=utf-8", "Not Found"⟩, [target, idx])
    else
      let status : Nat :=
        match err with
        | ReadResult.enoent => 404
        | ReadResult.enotdir => 404
        | _ => 500
      (⟨status, "text/plain; charset=utf-8",
        if status = 404 then "Not Found" else "Internal Server Error"⟩, [target])

/-- Embedded request handler of `createServer` in server.js, over an
abstract filesystem `fs`. Returns the response together with the list of
paths read from disk; `none` models an uncaught exception. -/
def handleRequest (fs : String → ReadResult) (publicDir url accept : String) :
    Option (Response × List String) :=
  if url = "" then some (⟨400, "text/plain; charset=utf-8", "Bad Request"⟩, [])
  else if jsStartsWith url "/api/" then
    some (⟨404, "application/json; charset=utf-8", apiDisabledBody⟩, [])
  else
    let pathname := jsPathname url
    let target? :=
      if pathname = "/" then Except.ok (some (posixJoin publicDir "index.html"))
      else safePublicPath url publicDir
    match target? with
    | Except.error _ => none
    | Except.ok none => some (⟨400, "text/plain; charset=utf-8", "Bad Request"⟩, [])
    | Except.ok (some target) =>
      some (readFileCallback fs publicDir url accept pathname target)

/-- A path strictly inside a root directory: the root followed by a
separator is a proper textual parent of the path. -/
def strictlyInside (root p : String) : Bool :=
  isPrefixChars (root ++ "/").data p.data

/-- A concrete filesystem with only `index.html` under the public root,
used to exercise the traversal request. -/
def fsEtcHosts : String → ReadResult := fun p =>
  if p = "/app/public/index.html" then ReadResult.ok "<html>dicktaint</html>"
  else ReadResult.enoent

/-- A concrete filesystem with only `index.html` under the public root,
used to exercise the missing-asset fallback. -/
def fsMissingAsset : String → ReadResult := fun p =>
  if p = "/app/public/index.html" then ReadResult.ok "INDEX" else ReadResult.enoent

/-! ### Hotkey combo parser (frontend app.js) -/

/-- The six modifier flags of a parsed binding, mirroring the `requires`
object built by `parseHotkeyCombo` (`super` is spelled `superKey`). -/
structure HotkeyRequires where
  cmdOrCtrl : Bool
  cmd : Bool
  ctrl : Bool
  alt : Bool
  shift : Bool
  superKey : Bool
deriving DecidableEq, Repr

/-- The modifier set with no member. -/
def emptyRequires : HotkeyRequires := ⟨false, false, false, false, false, false⟩

/-- Add a canonical modifier name to the set (the `modifiers.add` call). -/
def addModifier (r : HotkeyRequires) (m : String) : HotkeyRequires :=
  if m = "CmdOrCtrl" then { r with cmdOrCtrl := true }
  else if m = "Cmd" then { r with cmd := true }
  else if m = "Ctrl" then { r with ctrl := true }
  else if m = "Alt" then { r with alt := true }
  else if m = "Shift" then { r with shift := true }
  else if m = "Super" then { r with superKey := true }
  else r

/-- Membership of a canonical modifier name (the `modifiers.has` call). -/
def hasModifier (r : HotkeyRequires) (m : String) : Bool :=
  if m = "CmdOrCtrl" then r.cmdOrCtrl
  else if m = "Cmd" then r.cmd
  else if m = "Ctrl" then r.ctrl
  else if m = "Alt" then r.alt
  else if m = "Shift" then r.shift
  else if m = "Super" then r.superKey
  else false

/-- Size of the modifier set (the `modifiers.size` read). -/
def modCount (r : HotkeyRequires) : Nat :=
  (if r.cmdOrCtrl then 1 else 0) + (if r.cmd then 1 else 0) + (if r.ctrl then 1 else 0) +
    (if r.alt then 1 else 0) + (if r.shift then 1 else 0) + (if r.superKey then 1 else 0)

/-- `HOTKEY_MODIFIER_ORDER` of app.js. -/
def HOTKEY_MODIFIER_ORDER : List String :=
  ["CmdOrCtrl", "Cmd", "Ctrl", "Alt", "Shift", "Super"]

/-- The modifiers present in a set, listed in canonical display order. -/
def orderedModifiers (r : HotkeyRequires) : List String :=
  HOTKEY_MODIFIER_ORDER.filter (fun m => hasModifier r m)

/-- Embedded `normalizeHotkeyModifier` of app.js. -/
def normalizeHotkeyModifier (token : String) : Option String :=
  let normalized := jsToLower (jsTrim token)
  if normalized = "" then none
  else if normalized = "cmdorctrl" ∨ normalized = "commandorcontrol" ∨
      normalized = "primary" ∨ normalized = "mod" then some "CmdOrCtrl"
  else if normalized = "cmd" ∨ normalized = "command" then some "Cmd"
  else if normalized = "ctrl" ∨ normalized = "control" then some "Ctrl"
  else if normalized = "alt" ∨ normalized = "option" then some "Alt"
  else if normalized = "shift" then some "Shift"
  else if normalized = "super" ∨ normalized = "meta" ∨ normalized = "win" ∨
      normalized = "windows" then some "Super"
  else none

/-- The `aliasMap` object of `normalizeHotkeyKey`, as an association
list to be looked up by lowercased token. -/
def hotkeyAliasPairs : List (String × String) :=
  [("fn", "Fn"), ("function", "Fn"), ("globe", "Fn"),
   ("space", "Space"), ("tab", "Tab"),
   ("enter", "Enter"), ("return", "Enter"),
   ("esc", "Escape"), ("escape", "Escape"),
   ("backspace", "Backspace"), ("delete", "Delete"), ("del", "Delete"),
   ("up", "Up"), ("arrowup", "Up"),
   ("down", "Down"), ("arrowdown", "Down"),
   ("left", "Left"), ("arrowleft", "Left"),
   ("right", "Right"), ("arrowright", "Right"),
   ("home", "Home"), ("end", "End"),
   ("pageup", "PageUp"), ("pagedown", "PageDown"), ("insert", "Insert")]

/-- The `aliasMap[lower]` read of `normalizeHotkeyKey`. -/
def hotkeyKeyAlias (lower : String) : Option String :=
  hotkeyAliasPairs.lookup lower

/-- The digit groups matched by the function-key pattern `[1-9]|1\d|2[0-4]`
of `normalizeHotkeyKey`: the numbers 1 to 24 without leading zeros. -/
def fnKeyDigits : List String :=
  (List.range 24).map (fun n => toString (n + 1))

/-- A single character the pattern `[a-z0-9]` (case-insensitive) accepts. -/
def isSingleAlnum (l : List Char) : Bool :=
  match l with
  | [c] => c.isAlpha || c.isDigit
  | _ => false

/-- The function-key pattern `^f([1-9]|1\d|2[0-4])$` (case-insensitive)
of `normalizeHotkeyKey`: on a match, the digits of the source string
follow an uppercase `F`. -/
def fnKeyMatch (trimmed : String) : Option String :=
  match trimmed.data with
  | c :: rest =>
    if (c = 'f' ∨ c = 'F') ∧ String.mk rest ∈ fnKeyDigits then
      some ("F" ++ String.mk rest)
    else none
  | [] => none

/-- Embedded `normalizeHotkeyKey` of app.js. -/
def normalizeHotkeyKey (token : String) : Option String :=
  let trimmed := jsTrim token
  if trimmed = "" then none
  else if isSingleAlnum trimmed.data then some (jsToUpper trimmed)
  else
    match hotkeyKeyAlias (jsToLower trimmed) with
    | some v => some v
    | none => fnKeyMatch trimmed

/-- A parsed hotkey binding: display string, main key, modifier flags. -/
structure HotkeyBinding where
  display : String
  key : String
  requires : HotkeyRequires
deriving DecidableEq, Repr

/-- The token loop of `parseHotkeyCombo`: fold the `+`-separated tokens
into the modifier set and the single main key, with the error returns of
the source. -/
def parseLoop : List String → HotkeyRequires → Option String →
    Except String (HotkeyRequires × Option String)
  | [], mods, key => Except.ok (mods, key)
  | token :: rest, mods, key =>
    let trimmed := jsTrim token
    if trimmed = "" then Except.error "Hotkey contains an empty token."
    else
      match normalizeHotkeyModifier trimmed with
      | some m =>
        if key.isSome then Except.error "Modifiers must come before the main key."
        else parseLoop rest (addModifier mods m) key
      | none =>
        if key.isSome then Except.error "Hotkey can only have one main key."
        else
          match normalizeHotkeyKey trimmed with
          | some k => parseLoop rest mods (some k)
          | none => Except.error ("Unsupported key \"" ++ trimmed ++ "\".")

/-- The `CmdOrCtrl` redundancy check of `parseHotkeyCombo`. -/
def hasCmdOrCtrlConflict (mods : HotkeyRequires) : Bool :=
  hasModifier mods "CmdOrCtrl" && (hasModifier mods "Cmd" || hasModifier mods "Ctrl")

/-- Embedded `parseHotkeyCombo` of app.js. -/
def parseHotkeyCombo (raw : String) : Except String HotkeyBinding :=
  let source := jsTrim raw
  if source = "" then Except.error "Hotkey cannot be empty."
  else
    match parseLoop (jsSplit '+' source) emptyRequires none with
    | Except.error e => Except.error e
    | Except.ok (mods, keyOpt) =>
      if keyOpt = some "Fn" then
        if modCount mods ≠ 0 then Except.error "Fn hotkey must be used by itself."
        else Except.ok ⟨"Fn", "Fn", emptyRequires⟩
      else if modCount mods = 0 then
        Except.error "Hotkey must include at least one modifier (or use Fn by itself on macOS)."
      else
        match keyOpt with
        | none => Except.error "Hotkey is missing its main key."
        | some key =>
          if hasCmdOrCtrlConflict mods then
            Except.error "Use CmdOrCtrl by itself, or use Cmd/Ctrl explicitly."
          else
            Except.ok ⟨joinPlus (orderedModifiers mods ++ [key]), key, mods⟩

/-- The fold the token loop performs on modifier tokens. -/
def foldModifier (acc : HotkeyRequires) (t : String) : HotkeyRequires :=
  match normalizeHotkeyModifier (jsTrim t) with
  | some m => addModifier acc m
  | none => acc

/-- The uppercase alphanumeric characters. -/
def upperAlnumChars : List Char := "ABCDEFGHIJKLMNOPQRSTUVWXYZ0123456789".data

/-- Canonical single-character keys. -/
def singleCharKeys : List String := upperAlnumChars.map (fun c => String.mk [c])

/-- Canonical named keys (the values of the alias map). -/
def namedKeys : List String :=
  ["Fn", "Space", "Tab", "Enter", "Escape", "Backspace", "Delete", "Up", "Down",
   "Left", "Right", "Home", "End", "PageUp", "PageDown", "Insert"]

/-- Canonical function keys F1 to F24. -/
def functionKeys : List String := fnKeyDigits.map (fun d => "F" ++ d)

/-- Every canonical main-key token `normalizeHotkeyKey` can produce. -/
def canonicalKeys : List String := singleCharKeys ++ namedKeys ++ functionKeys

/-! ### Overlay pill (overlay window script) -/

/-- The payload of a `dicktaint://pill-status` event as the overlay sees
it; absent fields model `undefined`. -/
structure PillPayload where
  state : Option String
  message : Option String
  visible : Option Bool

/-- The five pill states recognised by `normalizeState`. -/
def pillStates : List String := ["working", "live", "ok", "error", "idle"]

/-- Embedded `normalizeState` of the overlay script. -/
def normalizeState (state : Option String) : String :=
  let value := jsToLower (state.getD "")
  if value ∈ pillStates then value else "idle"

/-- What `applyStatus` writes to the DOM: pill state, pill text, body
visibility. -/
structure PillView where
  state : String
  message : String
  visible : Bool
deriving DecidableEq, Repr

/-- Embedded `applyStatus` of the overlay script (the DOM writes are
returned as a record). -/
def applyStatus (payload : PillPayload) : PillView :=
  let state := normalizeState payload.state
  let trimmed := jsTrim (payload.message.getD "")
  let message := if trimmed = "" then "Hold fn to dictate" else trimmed
  let visible := payload.visible ≠ some false
  ⟨state, message, visible⟩

/-! ### Model catalog evaluation -/

/-- Modelled from the spec: the Rust onboarding code (src-tauri/src/main.rs)
that holds the catalog logic is not under src/, so the device profile is
taken from the data model of the spec (section 3). -/
structure DeviceProfile where
  total_memory_gb : Rat
  logical_cpu_cores : Nat
  architecture : String
  os : String

/-- Modelled from the spec: a catalog entry as the spec describes it
(section 3, ModelDescriptor). -/
structure ModelDescriptor where
  id : String
  display_name : String
  whisper_ref : String
  file_name : String
  approx_size_gb : Rat
  min_ram_gb : Rat
  recommended_ram_gb : Rat
  speed_note : String
  quality_note : String

/-- Modelled from the spec: the per-request runtime annotation of a
catalog entry (section 3, ModelRuntimeState). -/
structure ModelRuntimeState where
  id : String
  installed : Bool
  likely_runnable : Bool
  recommended : Bool

/-- Modelled from the spec: a model is likely runnable when device RAM is
at or above its hard floor `min_ram_gb`. -/
def likelyRunnable (p : DeviceProfile) (m : ModelDescriptor) : Bool :=
  decide (m.min_ram_gb ≤ p.total_memory_gb)

/-- Modelled from the spec: fit level, true when device RAM meets the
comfort floor `recommended_ram_gb`. -/
def fitLevel (p : DeviceProfile) (m : ModelDescriptor) : Bool :=
  decide (m.recommended_ram_gb ≤ p.total_memory_gb)

/-- Modelled from the spec: is the challenger strictly higher than the
incumbent in the composite ranking key (fit level, then
`recommended_ram_gb`, then `approx_size_gb`, each higher first). -/
def rankBetter (p : DeviceProfile) (challenger incumbent : ModelDescriptor) : Bool :=
  (fitLevel p challenger && !fitLevel p incumbent) ||
    ((fitLevel p challenger == fitLevel p incumbent) &&
      (decide (incumbent.recommended_ram_gb < challenger.recommended_ram_gb) ||
        ((challenger.recommended_ram_gb == incumbent.recommended_ram_gb) &&
          decide (incumbent.approx_size_gb < challenger.approx_size_gb))))

/-- Modelled from the spec: index and descriptor of the highest-ranked
likely-runnable entry, ties resolved toward catalog order; `i` is the
index of the first list element. -/
def pickRecommended (p : DeviceProfile) : List ModelDescriptor → Nat →
    Option (Nat × ModelDescriptor)
  | [], _ => none
  | m :: rest, i =>
    let best := pickRecommended p rest (i + 1)
    if likelyRunnable p m then
      match best with
      | none => some (i, m)
      | some (j, m2) => if rankBetter p m2 m then some (j, m2) else some (i, m)
    else best

/-- Modelled from the spec: `evaluate(profile, models_dir, selected_id)`,
annotating each catalog entry; the models directory is abstracted as the
`installed` predicate on file names. -/
def evaluateCatalog (p : DeviceProfile) (installed : String → Bool)
    (catalog : List ModelDescriptor) : List ModelRuntimeState :=
  let best := (pickRecommended p catalog 0).map Prod.fst
  catalog.enum.map (fun im =>
    ⟨im.2.id, installed im.2.file_name, likelyRunnable p im.2, best == some im.1⟩)

/-- A concrete device profile to exercise the catalog invariant. -/
def witnessProfile : DeviceProfile := ⟨16, 8, "arm64", "macos"⟩

/-- A concrete two-entry catalog to exercise the catalog invariant. -/
def witnessCatalog : List ModelDescriptor :=
  [⟨"tiny-en", "Tiny (English)", "tiny.en", "ggml-tiny.en.bin", (1 : Rat) / 10, 1, 2,
    "fastest", "basic"⟩,
   ⟨"base-en", "Base (English)", "base.en", "ggml-base.en.bin", (1 : Rat) / 2, 2, 4,
    "fast", "good"⟩]

/-! ### Theorems: static server (claims C1 to C4) -/

/-- C1, amended: for every request path and public root, `safePublicPath`
either throws a URIError, returns null, or returns a path that has the
public root as a textual prefix; the returned path need not lie strictly
inside the root. -/
theorem safePublicPath_root_prefix_or_none (p root : String) :
    safePublicPath p root = Except.error "URIError" ∨
    safePublicPath p root = Except.ok none ∨
    ∃ r, safePublicPath p root = Except.ok (some r) ∧ jsStartsWith r root = true := by
  unfold safePublicPath
  cases hdec : decodeURIComponent ((jsSplit '?' p).headD "") with
  | none => exact Or.inl rfl
  | some decoded =>
    by_cases hsw : jsStartsWith (posixJoin root (dropLeadingSlashes (posixNormalize decoded))) root = true
    · exact Or.inr (Or.inr ⟨_, by simp [hsw], hsw⟩)
    · exact Or.inr (Or.inl (by simp [hsw]))

/-- C1, counterexample: the request path `../public2` against the public
root `/app/public` resolves to the sibling directory `/app/public2`,
which `safePublicPath` returns although it is outside the root. -/
theorem safePublicPath_escape_cex :
    safePublicPath "../public2" "/app/public" = Except.ok (some "/app/public2") ∧
    strictlyInside "/app/public" "/app/public2" = false ∧
    "/app/public2" ≠ "/app/public" :=
  ⟨rfl, rfl, by decide⟩

/-- C2, counterexample: a GET for `/../etc/hosts` (public root
`/app/public`, only `index.html` on disk) is answered with status 200 via
the SPA fallback, not 400, and two file reads are attempted. -/
theorem etcHosts_cex :
    handleRequest fsEtcHosts "/app/public" "/../etc/hosts" "" =
      some (⟨200, "text/html; charset=utf-8", "<html>dicktaint</html>"⟩,
        ["/app/public/etc/hosts", "/app/public/index.html"]) ∧
    (handleRequest fsEtcHosts "/app/public" "/../etc/hosts" "").map (fun r => r.1.status) ≠
      some 400 ∧
    (handleRequest fsEtcHosts "/app/public" "/../etc/hosts" "").map Prod.snd ≠
      some ([] : List String) :=
  ⟨rfl, by decide, by decide⟩

/-- C2, amended: `GET /../etc/hosts` normalizes to `etc/hosts` inside the
public root, so the server does not answer 400: it reads
`<public>/etc/hosts`, and when that file is absent and `index.html` is
present it serves the SPA fallback with status 200; only those two
in-root paths are read. -/
theorem etcHosts_spa_fallback (fs : String → ReadResult) (accept c : String)
    (hmiss : fs "/app/public/etc/hosts" = ReadResult.enoent)
    (hidx : fs "/app/public/index.html" = ReadResult.ok c) :
    handleRequest fs "/app/public" "/../etc/hosts" accept =
      some (⟨200, "text/html; charset=utf-8", c⟩,
        ["/app/public/etc/hosts", "/app/public/index.html"]) := by
  have hspa : shouldServeSpaFallback accept "/../etc/hosts" = true := by
    unfold shouldServeSpaFallback
    rw [show (posixExtname (jsPathname "/../etc/hosts") == "") = true from rfl, Bool.or_true]
  have step : handleRequest fs "/app/public" "/../etc/hosts" accept =
      some (readFileCallback fs "/app/public" "/../etc/hosts" accept "/../etc/hosts"
        "/app/public/etc/hosts") := rfl
  rw [step]
  unfold readFileCallback
  rw [hmiss]
  dsimp only
  rw [if_pos (⟨by decide, hspa⟩ :
    ("/../etc/hosts" : String) ≠ "/" ∧ shouldServeSpaFallback accept "/../etc/hosts" = true)]
  have hj : posixJoin "/app/public" "index.html" = "/app/public/index.html" := rfl
  rw [hj, hidx]

/-- Witness for the amended C2 theorem at a concrete filesystem. -/
theorem etcHosts_spa_fallback_witness :
    handleRequest fsEtcHosts "/app/public" "/../etc/hosts" "" =
      some (⟨200, "text/html; charset=utf-8", "<html>dicktaint</html>"⟩,
        ["/app/public/etc/hosts", "/app/public/index.html"]) :=
  etcHosts_spa_fallback fsEtcHosts "" "<html>dicktaint</html>" rfl rfl

/-- C3: every request whose URL starts with `/api/` gets status 404 with
the exact JSON body of the disabled-API response, and no file is read. -/
theorem api_routes_disabled (fs : String → ReadResult) (publicDir url accept : String)
    (h : jsStartsWith url "/api/" = true) :
    handleRequest fs publicDir url accept =
      some (⟨404, "application/json; charset=utf-8",
        "\x7b\"ok\":false,\"error\":\"No API routes are enabled in dictation-only mode.\"\x7d"⟩,
        []) := by
  have hne : url ≠ "" := by
    intro he
    rw [he] at h
    exact absurd h (by decide)
  unfold handleRequest
  rw [if_neg hne, if_pos h]
  rfl

/-- Witness for C3 at the URL `/api/health`. -/
theorem api_routes_disabled_witness :
    handleRequest (fun _ => ReadResult.enoent) "/app/public" "/api/health" "" =
      some (⟨404, "application/json; charset=utf-8",
        "\x7b\"ok\":false,\"error\":\"No API routes are enabled in dictation-only mode.\"\x7d"⟩,
        []) :=
  api_routes_disabled (fun _ => ReadResult.enoent) "/app/public" "/api/health" "" (by decide)

/-- C4: for a non-API, non-root request whose resolved file is missing,
the server serves `index.html` with 200 when the Accept header includes
`text/html` or the pathname has no extension (and `index.html` is
readable), and answers 404 otherwise. -/
theorem missing_file_spa_or_404 (fs : String → ReadResult) (publicDir url accept target : String)
    (hapi : jsStartsWith url "/api/" = false)
    (hroot : jsPathname url ≠ "/")
    (hres : safePublicPath url publicDir = Except.ok (some target))
    (hmiss : fs target = ReadResult.enoent) :
    ((jsIncludes accept "text/html" = true ∨ posixExtname (jsPathname url) = "") →
      ∀ c, fs (posixJoin publicDir "index.html") = ReadResult.ok c →
      handleRequest fs publicDir url accept =
        some (⟨200, "text/html; charset=utf-8", c⟩, [target, posixJoin publicDir "index.html"])) ∧
    ((jsIncludes accept "text/html" = false ∧ posixExtname (jsPathname url) ≠ "") →
      handleRequest fs publicDir url accept =
        some (⟨404, "text/plain; charset=utf-8", "Not Found"⟩, [target])) := by
  have hne : url ≠ "" := fun he => hroot (by rw [he]; rfl)
  have step : handleRequest fs publicDir url accept =
      some (readFileCallback fs publicDir url accept (jsPathname url) target) := by
    unfold handleRequest
    rw [if_neg hne, if_neg (by simp [hapi] : ¬jsStartsWith url "/api/" = true)]
    dsimp only
    rw [if_neg hroot, hres]
  constructor
  · intro hcond c hidx
    have hspa : shouldServeSpaFallback accept url = true := by
      unfold shouldServeSpaFallback
      cases hcond with
      | inl h => rw [h, Bool.true_or]
      | inr h =>
        rw [show (posixExtname (jsPathname url) == "") = true from beq_iff_eq.mpr h, Bool.or_true]
    rw [step]
    unfold readFileCallback
    rw [hmiss]
    dsimp only
    rw [if_pos (⟨hroot, hspa⟩ : jsPathname url ≠ "/" ∧ shouldServeSpaFallback accept url = true)]
    rw [hidx]
  · rintro ⟨hinc, hext⟩
    have hspa : shouldServeSpaFallback accept url = false := by
      unfold shouldServeSpaFallback
      rw [hinc, Bool.false_or]
      exact beq_eq_false_iff_ne.mpr hext
    rw [step]
    unfold readFileCallback
    rw [hmiss]
    dsimp only
    rw [if_neg (fun h => by rw [hspa] at h; exact Bool.false_ne_true h.2)]
    rfl

/-- Witness for C4 at a concrete extensionless request. -/
theorem missing_file_spa_or_404_witness :
    handleRequest fsMissingAsset "/app/public" "/some/fake/path" "" =
      some (⟨200, "text/html; charset=utf-8", "INDEX"⟩,
        ["/app/public/some/fake/path", "/app/public/index.html"]) :=
  (missing_file_spa_or_404 fsMissingAsset "/app/public" "/some/fake/path" ""
    "/app/public/some/fake/path" (by decide) (by decide) rfl rfl).1 (Or.inr rfl) "INDEX" rfl

/-! ### Theorems: overlay pill (claim C10) -/

/-- C10: `normalizeState` always lands in the five pill states, mapping a
missing or unrecognized state to `idle`, and `applyStatus` substitutes
the default message when the payload message trims to nothing. -/
theorem pill_status_normalization :
    (∀ s, normalizeState s ∈ pillStates) ∧
    normalizeState none = "idle" ∧
    (∀ s : String, jsToLower s ∉ pillStates → normalizeState (some s) = "idle") ∧
    (∀ p : PillPayload, jsTrim (p.message.getD "") = "" →
      (applyStatus p).message = "Hold fn to dictate") ∧
    (∀ p : PillPayload, (applyStatus p).state = normalizeState p.state) := by
  refine ⟨?_, rfl, ?_, ?_, fun _ => rfl⟩
  · intro s
    unfold normalizeState
    by_cases h : jsToLower (s.getD "") ∈ pillStates
    · rw [if_pos h]; exact h
    · rw [if_neg h]; decide
  · intro s h
    unfold normalizeState
    exact if_neg h
  · intro p h
    unfold applyStatus
    dsimp only
    rw [if_pos h]

/-- Witness for C10: an unrecognized state maps to idle and a whitespace
message is replaced by the default. -/
theorem pill_status_normalization_witness :
    normalizeState (some "LIVE!") = "idle" ∧
    (applyStatus ⟨some "live", some "   ", none⟩).message = "Hold fn to dictate" :=
  ⟨pill_status_normalization.2.2.1 "LIVE!" (by decide),
   pill_status_normalization.2.2.2.1 ⟨some "live", some "   ", none⟩ (by decide)⟩

/-! ### Theorems: hotkey parser (claims C5 to C7 and C9) and model catalog (claim C8) -/


set_option maxHeartbeats 2000000 in
/-- Every canonical key is a fixed point of `normalizeHotkeyKey`, is not a
modifier, and is a nonempty token free of whitespace and `+`. -/
theorem canonicalKeys_facts : ∀ k ∈ canonicalKeys,
    normalizeHotkeyKey k = some k ∧ normalizeHotkeyModifier k = none ∧
    (∀ c ∈ k.data, wsChar c = false ∧ ¬c = '+') ∧ k ≠ "" := by decide

/-- Every canonical modifier name normalizes to itself and is a nonempty
token free of whitespace and `+`. -/
theorem modifier_facts : ∀ m ∈ HOTKEY_MODIFIER_ORDER,
    normalizeHotkeyModifier m = some m ∧
    (∀ c ∈ m.data, wsChar c = false ∧ ¬c = '+') ∧ m ≠ "" := by decide

theorem lookup_mem_values {α β : Type} [BEq α] :
    ∀ (ps : List (α × β)) (a : α) (v : β), ps.lookup a = some v → v ∈ ps.map Prod.snd := by
  intro ps
  induction ps with
  | nil => intro a v h; exact absurd h (by simp [List.lookup])
  | cons p rest ih =>
    intro a v h
    rw [List.lookup] at h
    by_cases hb : (a == p.1) = true
    · rw [hb] at h
      simp only [List.map, List.mem_cons]
      exact Or.inl (by injection h with h2; exact h2.symm)
    · rw [Bool.eq_false_iff.mpr hb] at h
      exact List.mem_cons_of_mem _ (ih a v h)

theorem hotkeyKeyAlias_mem (l v : String) (h : hotkeyKeyAlias l = some v) : v ∈ namedKeys := by
  have hm := lookup_mem_values hotkeyAliasPairs l v h
  have step : ∀ w ∈ hotkeyAliasPairs.map Prod.snd, w ∈ namedKeys := by decide
  exact step v hm

theorem fnKeyMatch_mem (s k : String) (h : fnKeyMatch s = some k) : k ∈ functionKeys := by
  unfold fnKeyMatch at h
  split at h
  · split at h
    case isTrue hc =>
      injection h with h
      rw [← h]
      exact List.mem_map_of_mem _ hc.2
    case isFalse => exact absurd h (by simp)
  · exact absurd h (by simp)

theorem isSingleAlnum_eq (l : List Char) (h : isSingleAlnum l = true) :
    ∃ c, l = [c] ∧ (c.isAlpha || c.isDigit) = true := by
  cases l with
  | nil => exact absurd h (by simp [isSingleAlnum])
  | cons c rest =>
    cases rest with
    | nil => exact ⟨c, rfl, h⟩
    | cons d rest2 => exact absurd h (by simp [isSingleAlnum])

theorem alnum_toUpper_mem_aux : ∀ n, n < 123 →
    ((Char.ofNat n).isAlpha || (Char.ofNat n).isDigit) = true →
    (Char.ofNat n).toUpper ∈ upperAlnumChars := by decide

theorem alnum_toUpper_mem (c : Char) (h : (c.isAlpha || c.isDigit) = true) :
    c.toUpper ∈ upperAlnumChars := by
  have hb : c.toNat < 123 := by
    simp only [Char.isAlpha, Char.isUpper, Char.isLower, Char.isDigit, Bool.or_eq_true,
      Bool.and_eq_true, decide_eq_true_eq] at h
    rcases h with (⟨_, h2⟩ | ⟨_, h2⟩) | ⟨_, h2⟩
    · exact Nat.lt_of_le_of_lt (h2 : c.toNat ≤ 90) (by norm_num)
    · exact Nat.lt_of_le_of_lt (h2 : c.toNat ≤ 122) (by norm_num)
    · exact Nat.lt_of_le_of_lt (h2 : c.toNat ≤ 57) (by norm_num)
  have h2 := alnum_toUpper_mem_aux c.toNat hb
  rw [Char.ofNat_toNat] at h2
  exact h2 h

theorem normKey_mem_canonical (t k : String) (h : normalizeHotkeyKey t = some k) :
    k ∈ canonicalKeys := by
  unfold normalizeHotkeyKey at h
  dsimp only at h
  split at h
  · exact absurd h (by simp)
  · split at h
    case isTrue hg =>
      injection h with h
      obtain ⟨c, hc, halnum⟩ := isSingleAlnum_eq _ hg
      rw [← h]
      have hup : jsToUpper (jsTrim t) = String.mk [c.toUpper] := by
        unfold jsToUpper
        rw [hc]
        rfl
      rw [hup]
      exact List.mem_append_left _ (List.mem_append_left _
        (List.mem_map_of_mem _ (alnum_toUpper_mem c halnum)))
    case isFalse =>
      split at h
      case h_1 v heq =>
        injection h with h
        rw [← h]
        exact List.mem_append_left _ (List.mem_append_right _ (hotkeyKeyAlias_mem _ v heq))
      case h_2 =>
        exact List.mem_append_right _ (fnKeyMatch_mem _ _ h)

theorem parseLoop_keySome (toks : List String) (mods : HotkeyRequires) (k : String)
    (res : HotkeyRequires × Option String)
    (h : parseLoop toks mods (some k) = Except.ok res) : toks = [] ∧ res = (mods, some k) := by
  cases toks with
  | nil =>
    refine ⟨rfl, ?_⟩
    unfold parseLoop at h
    injection h with h
    exact h.symm
  | cons t ts =>
    exfalso
    unfold parseLoop at h
    dsimp only at h
    split at h
    · exact absurd h (by simp)
    · split at h
      · rw [if_pos (by simp : (some k).isSome = true)] at h
        exact absurd h (by simp)
      · rw [if_pos (by simp : (some k).isSome = true)] at h
        exact absurd h (by simp)

theorem parseLoop_shape (toks : List String) :
    ∀ (m0 mods : HotkeyRequires) (k : String),
    parseLoop toks m0 none = Except.ok (mods, some k) →
    ∃ mtoks ktok, toks = mtoks ++ [ktok] ∧
      (∀ t ∈ mtoks, (normalizeHotkeyModifier (jsTrim t)).isSome = true) ∧
      normalizeHotkeyModifier (jsTrim ktok) = none ∧
      normalizeHotkeyKey (jsTrim ktok) = some k ∧
      (∀ t ∈ toks, jsTrim t ≠ "") ∧
      mods = mtoks.foldl foldModifier m0 := by
  induction toks with
  | nil =>
    intro m0 mods k h
    unfold parseLoop at h
    injection h with h
    exact absurd (congrArg Prod.snd h) (by simp)
  | cons t ts ih =>
    intro m0 mods k h
    unfold parseLoop at h
    dsimp only at h
    split at h
    · exact absurd h (by simp)
    case isFalse hne =>
      split at h
      case h_1 m heq =>
        rw [if_neg (by simp)] at h
        obtain ⟨mtoks, ktok, hsplit, hmods, hktokmod, hktokkey, htrim, hfold⟩ :=
          ih (addModifier m0 m) mods k h
        refine ⟨t :: mtoks, ktok, by rw [hsplit]; rfl, ?_, hktokmod, hktokkey, ?_, ?_⟩
        · intro u hu
          cases hu with
          | head => rw [heq]; rfl
          | tail _ hu2 => exact hmods u hu2
        · intro u hu
          cases hu with
          | head => exact hne
          | tail _ hu2 => exact htrim u (hsplit ▸ hu2)
        · rw [hfold]
          have : foldModifier m0 t = addModifier m0 m := by
            unfold foldModifier
            rw [heq]
          rw [List.foldl_cons, this]
      case h_2 heq =>
        rw [if_neg (by simp)] at h
        split at h
        case h_1 k2 heq2 =>
          obtain ⟨hts, hres⟩ := parseLoop_keySome ts m0 k2 (mods, some k) h
          have hmods : mods = m0 := congrArg Prod.fst hres
          have hk : some k2 = some k := congrArg Prod.snd hres.symm
          injection hk with hk
          refine ⟨[], t, ?_, ?_, heq, hk ▸ heq2, ?_, ?_⟩
          · rw [hts]
            rfl
          · intro u hu
            cases hu
          · intro u hu
            rw [hts] at hu
            cases hu with
            | head => exact hne
            | tail _ hu2 => cases hu2
          · rw [hmods]
            rfl
        case h_2 => exact absurd h (by simp)

theorem parseLoop_append (xs ys : List String) :
    ∀ (m : HotkeyRequires) (key : Option String),
    parseLoop (xs ++ ys) m key =
      match parseLoop xs m key with
      | Except.ok (m2, k2) => parseLoop ys m2 k2
      | Except.error e => Except.error e := by
  induction xs with
  | nil => intro m key; rfl
  | cons t ts ih =>
    intro m key
    rw [List.cons_append]
    show (let trimmed := jsTrim t
      if trimmed = "" then Except.error "Hotkey contains an empty token."
      else
        match normalizeHotkeyModifier trimmed with
        | some m2 =>
          if key.isSome then Except.error "Modifiers must come before the main key."
          else parseLoop (ts ++ ys) (addModifier m m2) key
        | none =>
          if key.isSome then Except.error "Hotkey can only have one main key."
          else
            match normalizeHotkeyKey trimmed with
            | some k => parseLoop (ts ++ ys) m (some k)
            | none => Except.error ("Unsupported key \"" ++ trimmed ++ "\".")) = _
    dsimp only
    by_cases he : jsTrim t = ""
    · rw [if_pos he]
      conv_rhs => rw [parseLoop]
      try dsimp only
      rw [if_pos he]
    · rw [if_neg he]
      conv_rhs => rw [parseLoop]
      try dsimp only
      rw [if_neg he]
      cases hmod : normalizeHotkeyModifier (jsTrim t) with
      | some m2 =>
        try dsimp only
        cases key with
        | some k0 => rfl
        | none =>
          try dsimp only
          exact ih (addModifier m m2) none
      | none =>
        try dsimp only
        cases key with
        | some k0 => rfl
        | none =>
          try dsimp only
          cases hkey : normalizeHotkeyKey (jsTrim t) with
          | some k2 => exact ih m (some k2)
          | none => rfl

theorem normMod_mem_order (t m : String) (h : normalizeHotkeyModifier t = some m) :
    m ∈ HOTKEY_MODIFIER_ORDER := by
  unfold normalizeHotkeyModifier at h
  dsimp only at h
  split_ifs at h <;> injection h with h2 <;> rw [← h2] <;> decide

theorem replay_orderedModifiers (r : HotkeyRequires) :
    parseLoop (orderedModifiers r) emptyRequires none = Except.ok (r, none) := by
  obtain ⟨a, b, c, d, e, f⟩ := r
  cases a <;> cases b <;> cases c <;> cases d <;> cases e <;> cases f <;> rfl

theorem orderedModifiers_ne_nil (r : HotkeyRequires) (h : modCount r ≠ 0) :
    orderedModifiers r ≠ [] := by
  obtain ⟨a, b, c, d, e, f⟩ := r
  cases a <;> cases b <;> cases c <;> cases d <;> cases e <;> cases f <;>
    first
      | exact absurd rfl h
      | exact fun hc => List.noConfusion hc

theorem foldModifier_preserves (mtoks : List String) :
    ∀ (r : HotkeyRequires) (m : String), m ∈ HOTKEY_MODIFIER_ORDER →
    hasModifier r m = true → hasModifier (mtoks.foldl foldModifier r) m = true := by
  induction mtoks with
  | nil => intro r m _ h; exact h
  | cons u us ih =>
    intro r m hmem h
    rw [List.foldl_cons]
    refine ih (foldModifier r u) m hmem ?_
    unfold foldModifier
    cases hn : normalizeHotkeyModifier (jsTrim u) with
    | none => exact h
    | some n =>
      have hnm := normMod_mem_order _ n hn
      fin_cases hmem <;> fin_cases hnm <;> first | rfl | exact h

theorem hasModifier_foldModifier_of_mem (mtoks : List String) :
    ∀ (m0 : HotkeyRequires) (t : String), t ∈ mtoks →
    ∀ m, normalizeHotkeyModifier (jsTrim t) = some m →
    hasModifier (mtoks.foldl foldModifier m0) m = true := by
  induction mtoks with
  | nil => intro _ _ h; cases h
  | cons u us ih =>
    intro m0 t ht m hm
    rw [List.foldl_cons]
    cases ht with
    | head =>
      have hmem := normMod_mem_order (jsTrim u) m hm
      have hadd : hasModifier (foldModifier m0 u) m = true := by
        unfold foldModifier
        rw [hm]
        fin_cases hmem <;> rfl
      exact foldModifier_preserves us (foldModifier m0 u) m hmem hadd
    | tail _ ht2 => exact ih (foldModifier m0 u) t ht2 m hm

theorem modCount_pos_of_has (r : HotkeyRequires) (m : String)
    (hmem : m ∈ HOTKEY_MODIFIER_ORDER) (h : hasModifier r m = true) : modCount r ≠ 0 := by
  obtain ⟨a, b, c, d, e, f⟩ := r
  fin_cases hmem <;>
    (simp only [hasModifier] at h) <;>
    (first
      | (rw [show a = true from h]; simp [modCount])
      | (rw [show b = true from h]; simp [modCount])
      | (rw [show c = true from h]; simp [modCount])
      | (rw [show d = true from h]; simp [modCount])
      | (rw [show e = true from h]; simp [modCount])
      | (rw [show f = true from h]; simp [modCount]))

theorem trimChars_of_wsFree (l : List Char) (h : ∀ c ∈ l, wsChar c = false) :
    trimChars l = l := by
  have drop1 : ∀ (l2 : List Char), (∀ c ∈ l2, wsChar c = false) → l2.dropWhile wsChar = l2 := by
    intro l2 h2
    cases l2 with
    | nil => rfl
    | cons c t => rw [List.dropWhile_cons, if_neg (by rw [h2 c (List.mem_cons_self c t)]; simp)]
  unfold trimChars
  rw [drop1 l h, drop1 l.reverse (fun c hc => h c (List.mem_reverse.mp hc)), List.reverse_reverse]

theorem jsTrim_of_wsFree (s : String) (h : ∀ c ∈ s.data, wsChar c = false) : jsTrim s = s := by
  unfold jsTrim
  rw [trimChars_of_wsFree s.data h]

theorem splitChars_no_sep (sep : Char) (l : List Char) (h : ∀ c ∈ l, ¬c = sep) :
    splitChars sep l = [l] := by
  induction l with
  | nil => rfl
  | cons c t ih =>
    rw [splitChars]
    simp only [ih (fun d hd => h d (List.mem_cons_of_mem c hd)),
      if_neg (h c (List.mem_cons_self c t)), List.headD_cons, List.tail_cons]

theorem splitChars_append (sep : Char) (a b : List Char) (h : ∀ c ∈ a, ¬c = sep) :
    splitChars sep (a ++ sep :: b) = a :: splitChars sep b := by
  induction a with
  | nil => simp [splitChars]
  | cons c t ih =>
    rw [List.cons_append, splitChars]
    simp only [ih (fun d hd => h d (List.mem_cons_of_mem c hd)),
      if_neg (h c (List.mem_cons_self c t)), List.headD_cons, List.tail_cons]

theorem joinPlus_cons (t : String) (ts : List String) (h : ts ≠ []) :
    joinPlus (t :: ts) = t ++ "+" ++ joinPlus ts := by
  cases ts with
  | nil => exact absurd rfl h
  | cons u us => rfl

theorem data_append (s u : String) : (s ++ u).data = s.data ++ u.data := String.data_append s u

theorem jsSplit_joinPlus (parts : List String) (hne : parts ≠ [])
    (hplus : ∀ t ∈ parts, ∀ c ∈ t.data, ¬c = '+') :
    jsSplit '+' (joinPlus parts) = parts := by
  induction parts with
  | nil => exact absurd rfl hne
  | cons t ts ih =>
    cases ts with
    | nil =>
      unfold jsSplit
      rw [show joinPlus [t] = t from rfl,
        splitChars_no_sep '+' t.data (hplus t (List.mem_cons_self t []))]
      rfl
    | cons u us =>
      unfold jsSplit
      rw [joinPlus_cons t (u :: us) (fun hc => List.noConfusion hc)]
      rw [data_append, data_append]
      rw [show ("+" : String).data = ['+'] from rfl]
      rw [List.append_assoc, List.singleton_append]
      rw [splitChars_append '+' t.data _ (hplus t (List.mem_cons_self t (u :: us)))]
      show (t.data :: splitChars '+' (joinPlus (u :: us)).data).map String.mk = t :: u :: us
      rw [List.map_cons]
      have ihr := ih (fun hc => List.noConfusion hc)
        (fun v hv c hc => hplus v (List.mem_cons_of_mem t hv) c hc)
      unfold jsSplit at ihr
      rw [ihr]

theorem joinPlus_chars (parts : List String)
    (h : ∀ t ∈ parts, ∀ c ∈ t.data, wsChar c = false) :
    ∀ c ∈ (joinPlus parts).data, wsChar c = false := by
  induction parts with
  | nil => intro c hc; exact absurd hc (by simp [joinPlus])
  | cons t ts ih =>
    cases ts with
    | nil => exact fun c hc => h t (List.mem_cons_self t []) c hc
    | cons u us =>
      intro c hc
      rw [joinPlus_cons t (u :: us) (fun hcon => List.noConfusion hcon), data_append,
        data_append] at hc
      rcases List.mem_append.mp hc with hc2 | hc2
      · rcases List.mem_append.mp hc2 with hc3 | hc3
        · exact h t (List.mem_cons_self t (u :: us)) c hc3
        · rw [show ("+" : String).data = ['+'] from rfl] at hc3
          rw [List.mem_singleton.mp hc3]
          rfl
      · exact ih (fun v hv => h v (List.mem_cons_of_mem t hv)) c hc2

theorem reparse_canonical (r : HotkeyRequires) (k : String)
    (hk : k ∈ canonicalKeys) (hkfn : k ≠ "Fn") (hmc : modCount r ≠ 0)
    (hconf : hasCmdOrCtrlConflict r = false) :
    parseHotkeyCombo (joinPlus (orderedModifiers r ++ [k])) =
      Except.ok ⟨joinPlus (orderedModifiers r ++ [k]), k, r⟩ := by
  obtain ⟨hkfix, hkmod, hkchars, hkne⟩ := canonicalKeys_facts k hk
  have hparts : ∀ t ∈ orderedModifiers r ++ [k], ∀ c ∈ t.data, wsChar c = false ∧ ¬c = '+' := by
    intro t ht c hc
    rcases List.mem_append.mp ht with hl | hr
    · exact (modifier_facts t (List.mem_of_mem_filter hl)).2.1 c hc
    · rw [List.mem_singleton.mp hr] at hc
      exact hkchars c hc
  have hne : orderedModifiers r ++ [k] ≠ [] := by simp
  have hDchars : ∀ c ∈ (joinPlus (orderedModifiers r ++ [k])).data, wsChar c = false :=
    joinPlus_chars _ (fun t ht c hc => (hparts t ht c hc).1)
  have htrim : jsTrim (joinPlus (orderedModifiers r ++ [k])) = joinPlus (orderedModifiers r ++ [k]) :=
    jsTrim_of_wsFree _ hDchars
  have hDne : joinPlus (orderedModifiers r ++ [k]) ≠ "" := by
    obtain ⟨m0, rest, hms⟩ : ∃ m0 rest, orderedModifiers r = m0 :: rest := by
      cases hor : orderedModifiers r with
      | nil => exact absurd hor (orderedModifiers_ne_nil r hmc)
      | cons m0 rest => exact ⟨m0, rest, rfl⟩
    rw [hms]
    intro he
    have hdata := congrArg String.data he
    rw [List.cons_append, joinPlus_cons m0 (rest ++ [k]) (by simp), data_append, data_append,
      show ("+" : String).data = ['+'] from rfl,
      show ("" : String).data = [] from rfl] at hdata
    simp at hdata
  have hsplit : jsSplit '+' (joinPlus (orderedModifiers r ++ [k])) = orderedModifiers r ++ [k] :=
    jsSplit_joinPlus _ hne (fun t ht c hc => (hparts t ht c hc).2)
  have hktrim : jsTrim k = k := jsTrim_of_wsFree k (fun c hc => (hkchars c hc).1)
  unfold parseHotkeyCombo
  try dsimp only
  rw [htrim, if_neg hDne, hsplit, parseLoop_append, replay_orderedModifiers r]
  try dsimp only
  rw [parseLoop]
  try dsimp only
  rw [hktrim, if_neg hkne, hkmod]
  try dsimp only
  rw [hkfix]
  try dsimp only
  rw [parseLoop]
  try dsimp only
  rw [if_neg (by simp : ¬(none : Option String).isSome = true)]
  try dsimp only
  rw [if_neg (fun he => hkfn (Option.some.inj he)), if_neg hmc]
  try dsimp only
  rw [if_neg (fun hc => by rw [hconf] at hc; exact Bool.false_ne_true hc)]

theorem parse_ok_shape (raw : String) (b : HotkeyBinding)
    (h : parseHotkeyCombo raw = Except.ok b) :
    (b = ⟨"Fn", "Fn", emptyRequires⟩ ∧
      ∃ mods, parseLoop (jsSplit '+' (jsTrim raw)) emptyRequires none =
          Except.ok (mods, some "Fn") ∧ modCount mods = 0) ∨
    (∃ mods key, b = ⟨joinPlus (orderedModifiers mods ++ [key]), key, mods⟩ ∧
      key ∈ canonicalKeys ∧ key ≠ "Fn" ∧ modCount mods ≠ 0 ∧
      hasCmdOrCtrlConflict mods = false ∧
      parseLoop (jsSplit '+' (jsTrim raw)) emptyRequires none = Except.ok (mods, some key)) := by
  unfold parseHotkeyCombo at h
  dsimp only at h
  split at h
  · exact absurd h (by simp)
  · split at h
    case h_1 => exact absurd h (by simp)
    case h_2 mods keyOpt heq =>
      split at h
      case isTrue hfn =>
        split at h
        · exact absurd h (by simp)
        case isFalse hmc =>
          injection h with h
          refine Or.inl ⟨h.symm, mods, ?_, not_ne_iff.mp hmc⟩
          rw [← hfn]
          exact heq
      case isFalse hfn =>
        split at h
        · exact absurd h (by simp)
        case isFalse hmc =>
          split at h
          case h_1 => exact absurd h (by simp)
          case h_2 _ key =>
            split at h
            case isTrue => exact absurd h (by simp)
            case isFalse hcf =>
              injection h with h
              obtain ⟨mtoks, ktok, _, _, _, hktokkey, _, _⟩ :=
                parseLoop_shape _ _ _ _ heq
              exact Or.inr ⟨mods, key, h.symm,
                normKey_mem_canonical _ _ hktokkey,
                fun he => hfn (congrArg some he),
                hmc, Bool.eq_false_iff.mpr hcf, heq⟩

/-- C5: for every hotkey string that parses to a binding, parsing the
display string of that binding succeeds and returns the same binding
(same display string, same main key, same modifier set). -/
theorem hotkey_parse_display_roundtrip (s : String) (b : HotkeyBinding)
    (h : parseHotkeyCombo s = Except.ok b) :
    parseHotkeyCombo b.display = Except.ok b := by
  rcases parse_ok_shape s b h with ⟨hfn, _⟩ | ⟨mods, key, hb, hk, hkfn, hmc, hcf, _⟩
  · rw [hfn]
    rfl
  · rw [hb]
    exact reparse_canonical mods key hk hkfn hmc hcf

/-- Witness for C5 at the input `shift+alt+a`. -/
theorem hotkey_parse_display_roundtrip_witness :
    parseHotkeyCombo "shift+alt+a" =
      Except.ok ⟨"Alt+Shift+A", "A", ⟨false, false, false, true, true, false⟩⟩ ∧
    parseHotkeyCombo "Alt+Shift+A" =
      Except.ok ⟨"Alt+Shift+A", "A", ⟨false, false, false, true, true, false⟩⟩ :=
  ⟨rfl, hotkey_parse_display_roundtrip "shift+alt+a"
    ⟨"Alt+Shift+A", "A", ⟨false, false, false, true, true, false⟩⟩ rfl⟩

/-- C7: for every accepted binding whose main key is not Fn, the display
string lists the modifiers present in the fixed order CmdOrCtrl, Cmd,
Ctrl, Alt, Shift, Super, followed by the main key, whatever order the
input string used. -/
theorem hotkey_display_canonical_order (s : String) (b : HotkeyBinding)
    (h : parseHotkeyCombo s = Except.ok b) (hkfn : b.key ≠ "Fn") :
    b.display =
      joinPlus (HOTKEY_MODIFIER_ORDER.filter (fun m => hasModifier b.requires m) ++ [b.key]) := by
  rcases parse_ok_shape s b h with ⟨hfn, _⟩ | ⟨mods, key, hb, _, _, _, _, _⟩
  · rw [hfn] at hkfn
    exact absurd rfl hkfn
  · rw [hb]
    rfl

/-- Witness for C7 at the out-of-order input `shift+alt+cmdorctrl+x`. -/
theorem hotkey_display_canonical_order_witness :
    (⟨"CmdOrCtrl+Alt+Shift+X", "X", ⟨true, false, false, true, true, false⟩⟩ :
        HotkeyBinding).display =
      joinPlus (HOTKEY_MODIFIER_ORDER.filter (fun m =>
        hasModifier (⟨true, false, false, true, true, false⟩ : HotkeyRequires) m) ++ ["X"]) :=
  hotkey_display_canonical_order "shift+alt+cmdorctrl+x"
    ⟨"CmdOrCtrl+Alt+Shift+X", "X", ⟨true, false, false, true, true, false⟩⟩ rfl (by decide)

/-- C6: `parseHotkeyCombo` fails for every binding string that contains
an empty token, or more than one main-key token, or CmdOrCtrl together
with Cmd or Ctrl, or an Fn main key together with any modifier. -/
theorem parse_rejects_malformed (raw : String) :
    ((∃ t ∈ jsSplit '+' (jsTrim raw), jsTrim t = "") ∨
     2 ≤ ((jsSplit '+' (jsTrim raw)).filter (fun t =>
        (normalizeHotkeyModifier (jsTrim t)).isNone &&
          (normalizeHotkeyKey (jsTrim t)).isSome)).length ∨
     ((∃ t ∈ jsSplit '+' (jsTrim raw), normalizeHotkeyModifier (jsTrim t) = some "CmdOrCtrl") ∧
      (∃ t ∈ jsSplit '+' (jsTrim raw), normalizeHotkeyModifier (jsTrim t) = some "Cmd" ∨
        normalizeHotkeyModifier (jsTrim t) = some "Ctrl")) ∨
     ((∃ t ∈ jsSplit '+' (jsTrim raw), normalizeHotkeyModifier (jsTrim t) = none ∧
        normalizeHotkeyKey (jsTrim t) = some "Fn") ∧
      (∃ t ∈ jsSplit '+' (jsTrim raw), (normalizeHotkeyModifier (jsTrim t)).isSome = true))) →
    ∃ e, parseHotkeyCombo raw = Except.error e := by
  intro hyp
  cases hp : parseHotkeyCombo raw with
  | error e => exact ⟨e, rfl⟩
  | ok b =>
    exfalso
    have hloop : ∃ mods key, parseLoop (jsSplit '+' (jsTrim raw)) emptyRequires none =
        Except.ok (mods, some key) ∧
        (key = "Fn" → modCount mods = 0) ∧
        (key ≠ "Fn" → modCount mods ≠ 0 ∧ hasCmdOrCtrlConflict mods = false) := by
      rcases parse_ok_shape raw b hp with ⟨_, mods, hl, hmc⟩ | ⟨mods, key, _, _, hkfn, hmc, hcf, hl⟩
      · exact ⟨mods, "Fn", hl, fun _ => hmc, fun hne => absurd rfl hne⟩
      · exact ⟨mods, key, hl, fun he => absurd he hkfn, fun _ => ⟨hmc, hcf⟩⟩
    obtain ⟨mods, key, hl, hfncase, hotherc⟩ := hloop
    obtain ⟨mtoks, ktok, hsplit, hmodsall, hktokmod, hktokkey, htrimall, hfold⟩ :=
      parseLoop_shape _ _ _ _ hl
    have hmem_mtoks : ∀ t ∈ jsSplit '+' (jsTrim raw),
        (normalizeHotkeyModifier (jsTrim t)).isSome = true → t ∈ mtoks := by
      intro t ht hsome
      rw [hsplit] at ht
      rcases List.mem_append.mp ht with h1 | h1
      · exact h1
      · rw [List.mem_singleton.mp h1] at hsome
        rw [hktokmod] at hsome
        exact absurd hsome (by simp)
    rcases hyp with hcase | hcase | hcase | hcase
    · obtain ⟨t, ht, he⟩ := hcase
      exact htrimall t ht he
    · rw [hsplit, List.filter_append] at hcase
      have h1 : mtoks.filter (fun t =>
          (normalizeHotkeyModifier (jsTrim t)).isNone &&
            (normalizeHotkeyKey (jsTrim t)).isSome) = [] := by
        rw [List.filter_eq_nil_iff]
        intro t ht hpred
        have := hmodsall t ht
        rw [Bool.and_eq_true, Option.isNone_iff_eq_none] at hpred
        rw [hpred.1] at this
        exact absurd this (by simp)
      rw [h1, List.nil_append] at hcase
      have h2 : ([ktok].filter (fun t =>
          (normalizeHotkeyModifier (jsTrim t)).isNone &&
            (normalizeHotkeyKey (jsTrim t)).isSome)).length ≤ 1 := by
        cases hf : [ktok].filter (fun t =>
            (normalizeHotkeyModifier (jsTrim t)).isNone &&
              (normalizeHotkeyKey (jsTrim t)).isSome) with
        | nil => simp
        | cons a l =>
          have := List.length_filter_le (fun t =>
            (normalizeHotkeyModifier (jsTrim t)).isNone &&
              (normalizeHotkeyKey (jsTrim t)).isSome) [ktok]
          rw [hf] at this
          simpa using this
      omega
    · obtain ⟨⟨t1, ht1, h1⟩, ⟨t2, ht2, h2⟩⟩ := hcase
      have hm1 : hasModifier mods "CmdOrCtrl" = true := by
        rw [hfold]
        exact hasModifier_foldModifier_of_mem mtoks emptyRequires t1
          (hmem_mtoks t1 ht1 (by rw [h1]; rfl)) "CmdOrCtrl" h1
      have hconf : hasCmdOrCtrlConflict mods = true := by
        unfold hasCmdOrCtrlConflict
        rw [hm1]
        rcases h2 with h2 | h2
        · have hm2 : hasModifier mods "Cmd" = true := by
            rw [hfold]
            exact hasModifier_foldModifier_of_mem mtoks emptyRequires t2
              (hmem_mtoks t2 ht2 (by rw [h2]; rfl)) "Cmd" h2
          rw [hm2]
          rfl
        · have hm2 : hasModifier mods "Ctrl" = true := by
            rw [hfold]
            exact hasModifier_foldModifier_of_mem mtoks emptyRequires t2
              (hmem_mtoks t2 ht2 (by rw [h2]; rfl)) "Ctrl" h2
          rw [hm2]
          simp
      by_cases hkf : key = "Fn"
      · have h0 := hfncase hkf
        exact modCount_pos_of_has mods "CmdOrCtrl" (by decide) hm1 h0
      · exact absurd hconf (by rw [(hotherc hkf).2]; simp)
    · obtain ⟨⟨t1, ht1, h1⟩, ⟨t2, ht2, h2⟩⟩ := hcase
      have ht1k : t1 = ktok := by
        rw [hsplit] at ht1
        rcases List.mem_append.mp ht1 with hx | hx
        · have := hmodsall t1 hx
          rw [h1.1] at this
          exact absurd this (by simp)
        · exact List.mem_singleton.mp hx
      have hkeyfn : key = "Fn" := by
        rw [ht1k, hktokkey] at h1
        exact Option.some.inj h1.2
      have h0 := hfncase hkeyfn
      obtain ⟨m, hm⟩ := Option.isSome_iff_exists.mp h2
      have hmemo := normMod_mem_order _ m hm
      have : hasModifier mods m = true := by
        rw [hfold]
        exact hasModifier_foldModifier_of_mem mtoks emptyRequires t2
          (hmem_mtoks t2 ht2 h2) m hm
      exact modCount_pos_of_has mods m hmemo this h0

/-- Witness for C6 at the empty-token input `Ctrl++A`. -/
theorem parse_rejects_malformed_witness :
    ∃ e, parseHotkeyCombo "Ctrl++A" = Except.error e :=
  parse_rejects_malformed "Ctrl++A" (Or.inl ⟨"", by decide, rfl⟩)

/-- C9: `parseHotkeyCombo` rejects every binding string with no modifier
tokens whose main key is not Fn (a bare key is invalid), and every
binding string in which a modifier token appears after the main key. -/
theorem parse_requires_leading_modifiers :
    (∀ raw : String,
      (∀ t ∈ jsSplit '+' (jsTrim raw), (normalizeHotkeyModifier (jsTrim t)).isSome = false) →
      (∀ t ∈ jsSplit '+' (jsTrim raw), normalizeHotkeyKey (jsTrim t) ≠ some "Fn") →
      ∃ e, parseHotkeyCombo raw = Except.error e) ∧
    (∀ (raw : String) (pre mid post : List String) (t1 t2 : String),
      jsSplit '+' (jsTrim raw) = pre ++ t1 :: (mid ++ t2 :: post) →
      normalizeHotkeyModifier (jsTrim t1) = none →
      (normalizeHotkeyModifier (jsTrim t2)).isSome = true →
      ∃ e, parseHotkeyCombo raw = Except.error e) := by
  have hloop_of_ok : ∀ (raw : String) (b : HotkeyBinding), parseHotkeyCombo raw = Except.ok b →
      ∃ mods key, parseLoop (jsSplit '+' (jsTrim raw)) emptyRequires none =
        Except.ok (mods, some key) ∧
        (key = "Fn" → modCount mods = 0) ∧ (key ≠ "Fn" → modCount mods ≠ 0) := by
    intro raw b hp
    rcases parse_ok_shape raw b hp with ⟨_, mods, hl, hmc⟩ | ⟨mods, key, _, _, hkfn, hmc, _, hl⟩
    · exact ⟨mods, "Fn", hl, fun _ => hmc, fun hne => absurd rfl hne⟩
    · exact ⟨mods, key, hl, fun he => absurd he hkfn, fun _ => hmc⟩
  constructor
  · intro raw hnomod hnofn
    cases hp : parseHotkeyCombo raw with
    | error e => exact ⟨e, rfl⟩
    | ok b =>
      exfalso
      obtain ⟨mods, key, hl, _, hother⟩ := hloop_of_ok raw b hp
      obtain ⟨mtoks, ktok, hsplit, hmodsall, _, hktokkey, _, hfold⟩ :=
        parseLoop_shape _ _ _ _ hl
      have hktokmem : ktok ∈ jsSplit '+' (jsTrim raw) := by
        rw [hsplit]
        exact List.mem_append_right _ (List.mem_singleton_self ktok)
      have hkfn : key ≠ "Fn" := by
        intro he
        rw [he] at hktokkey
        exact hnofn ktok hktokmem hktokkey
      cases hmt : mtoks with
      | nil =>
        rw [hmt] at hfold
        exact hother hkfn (by rw [hfold]; rfl)
      | cons u us =>
        have humem : u ∈ jsSplit '+' (jsTrim raw) := by
          rw [hsplit, hmt]
          exact List.mem_append_left _ (List.mem_cons_self u us)
        have h1 := hmodsall u (by rw [hmt]; exact List.mem_cons_self u us)
        have h2 := hnomod u humem
        rw [h1] at h2
        exact Bool.noConfusion h2
  · intro raw pre mid post t1 t2 hsp hm1 hm2
    cases hp : parseHotkeyCombo raw with
    | error e => exact ⟨e, rfl⟩
    | ok b =>
      exfalso
      obtain ⟨mods, key, hl, _, _⟩ := hloop_of_ok raw b hp
      rw [hsp, parseLoop_append] at hl
      cases hpre : parseLoop pre emptyRequires none with
      | error e =>
        rw [hpre] at hl
        exact absurd hl (by simp)
      | ok res =>
        obtain ⟨m1, k1⟩ := res
        rw [hpre] at hl
        try dsimp only at hl
        rw [parseLoop] at hl
        try dsimp only at hl
        split at hl
        · exact absurd hl (by simp)
        · rw [hm1] at hl
          try dsimp only at hl
          cases k1 with
          | some k0 =>
            rw [if_pos (by simp : (some k0).isSome = true)] at hl
            exact absurd hl (by simp)
          | none =>
            rw [if_neg (by simp : ¬(none : Option String).isSome = true)] at hl
            cases hnk : normalizeHotkeyKey (jsTrim t1) with
            | none =>
              rw [hnk] at hl
              exact absurd hl (by simp)
            | some k2 =>
              rw [hnk] at hl
              try dsimp only at hl
              obtain ⟨hnil, _⟩ := parseLoop_keySome _ _ _ _ hl
              exact absurd hnil (by simp)

/-- Witness for C9 at the inputs `A` and `A+Ctrl`. -/
theorem parse_requires_leading_modifiers_witness :
    (∃ e, parseHotkeyCombo "A" = Except.error e) ∧
    (∃ e, parseHotkeyCombo "A+Ctrl" = Except.error e) :=
  ⟨parse_requires_leading_modifiers.1 "A" (by decide) (by decide),
   parse_requires_leading_modifiers.2 "A+Ctrl" [] [] [] "A" "Ctrl" (by decide) rfl rfl⟩

theorem pickRecommended_bounds (p : DeviceProfile) (l : List ModelDescriptor) :
    ∀ (i j : Nat) (m : ModelDescriptor),
    pickRecommended p l i = some (j, m) → i ≤ j ∧ j < i + l.length := by
  induction l with
  | nil => intro i j m h; exact absurd h (by simp [pickRecommended])
  | cons a rest ih =>
    intro i j m h
    unfold pickRecommended at h
    dsimp only at h
    by_cases hr : likelyRunnable p a = true
    · rw [if_pos hr] at h
      cases hb : pickRecommended p rest (i + 1) with
      | none =>
        rw [hb] at h
        injection h with h
        injection h with h1 h2
        subst h1
        simp
      | some pr =>
        obtain ⟨j2, m2⟩ := pr
        rw [hb] at h
        have hih := ih (i + 1) j2 m2 hb
        dsimp only at h
        split at h
        · injection h with h
          injection h with h1 h2
          subst h1
          simp only [List.length_cons]
          omega
        · injection h with h
          injection h with h1 h2
          subst h1
          simp
    · rw [if_neg hr] at h
      have hih := ih (i + 1) j m h
      simp only [List.length_cons]
      omega

theorem pickRecommended_none (p : DeviceProfile) (l : List ModelDescriptor) :
    ∀ i, pickRecommended p l i = none → ∀ m ∈ l, likelyRunnable p m = false := by
  induction l with
  | nil => intro i _ m hm; cases hm
  | cons a rest ih =>
    intro i h m hm
    unfold pickRecommended at h
    dsimp only at h
    by_cases hr : likelyRunnable p a = true
    · rw [if_pos hr] at h
      cases hb : pickRecommended p rest (i + 1) with
      | none => rw [hb] at h; exact absurd h (by simp)
      | some pr =>
        rw [hb] at h
        dsimp only at h
        split at h <;> exact absurd h (by simp)
    · rw [if_neg hr] at h
      cases hm with
      | head => exact Bool.eq_false_iff.mpr hr
      | tail _ hm2 => exact ih (i + 1) h m hm2

/-- C8: for every device profile (and any catalog and installed set),
the evaluated listing marks at most one model as recommended, and marks
exactly one when at least one model is likely runnable. -/
theorem catalog_one_recommended (p : DeviceProfile) (installed : String → Bool)
    (catalog : List ModelDescriptor) :
    (evaluateCatalog p installed catalog).countP (fun s => s.recommended) ≤ 1 ∧
    ((∃ s ∈ evaluateCatalog p installed catalog, s.likely_runnable = true) →
      (evaluateCatalog p installed catalog).countP (fun s => s.recommended) = 1) := by
  have hcount : ∀ best : Option Nat,
      (catalog.enum.map (fun im => (⟨im.2.id, installed im.2.file_name,
          likelyRunnable p im.2, best == some im.1⟩ : ModelRuntimeState))).countP
        (fun s => s.recommended) =
      (List.range catalog.length).countP (fun i => best == some i) := by
    intro best
    rw [List.countP_map]
    have : (fun im : Nat × ModelDescriptor => best == some im.1) =
        ((fun i => best == some i) ∘ Prod.fst) := rfl
    calc catalog.enum.countP ((fun s : ModelRuntimeState => s.recommended) ∘
            (fun im => (⟨im.2.id, installed im.2.file_name,
              likelyRunnable p im.2, best == some im.1⟩ : ModelRuntimeState)))
        = catalog.enum.countP ((fun i => best == some i) ∘ Prod.fst) := rfl
      _ = (catalog.enum.map Prod.fst).countP (fun i => best == some i) :=
          (List.countP_map _ _ _).symm
      _ = (List.range catalog.length).countP (fun i => best == some i) := by
          rw [List.enum_map_fst]
  have hrange : ∀ j, j < catalog.length →
      (List.range catalog.length).countP (fun i => (some j : Option Nat) == some i) = 1 := by
    intro j hj
    have : (List.range catalog.length).countP (fun i => (some j : Option Nat) == some i) =
        (List.range catalog.length).count j := by
      apply List.countP_congr
      intro a _
      show ((some j : Option Nat) == some a) = true ↔ (a == j) = true
      simp only [beq_iff_eq, Option.some.injEq]
      exact eq_comm
    rw [this]
    exact List.count_eq_one_of_mem (List.nodup_range _) (List.mem_range.mpr hj)
  constructor
  · show (evaluateCatalog p installed catalog).countP (fun s => s.recommended) ≤ 1
    unfold evaluateCatalog
    dsimp only
    rw [hcount]
    cases hbest : (pickRecommended p catalog 0).map Prod.fst with
    | none =>
      have : (List.range catalog.length).countP
          (fun i => (none : Option Nat) == some i) = 0 := by
        rw [List.countP_eq_zero]
        intro a _
        simp
      rw [this]
      omega
    | some j =>
      obtain ⟨⟨j2, m2⟩, hp2, hj2⟩ := Option.map_eq_some'.mp hbest
      have hb := pickRecommended_bounds p catalog 0 j2 m2 hp2
      have h3 : j2 = j := hj2
      rw [hrange j (by omega)]
  · intro hex
    unfold evaluateCatalog at hex ⊢
    dsimp only at hex ⊢
    rw [hcount]
    cases hbest : (pickRecommended p catalog 0).map Prod.fst with
    | none =>
      exfalso
      obtain ⟨s, hs, hrun⟩ := hex
      obtain ⟨im, him, hsim⟩ := List.mem_map.mp hs
      have hmem : im.2 ∈ catalog := by
        have := List.mem_enum_iff_getElem?.mp (by exact him)
        exact List.getElem?_mem this
      have hnone : pickRecommended p catalog 0 = none := by
        cases hpn : pickRecommended p catalog 0 with
        | none => rfl
        | some pr => rw [hpn] at hbest; exact absurd hbest (by simp)
      have := pickRecommended_none p catalog 0 hnone im.2 hmem
      rw [← hsim] at hrun
      dsimp only at hrun
      rw [this] at hrun
      exact Bool.noConfusion hrun
    | some j =>
      obtain ⟨⟨j2, m2⟩, hp2, hj2⟩ := Option.map_eq_some'.mp hbest
      have hb := pickRecommended_bounds p catalog 0 j2 m2 hp2
      have h3 : j2 = j := hj2
      rw [hrange j (by omega)]

/-- Witness for C8 at a sixteen-gigabyte device over a concrete catalog. -/
theorem catalog_one_recommended_witness :
    (evaluateCatalog witnessProfile (fun _ => false) witnessCatalog).countP
      (fun s => s.recommended) = 1 :=
  (catalog_one_recommended witnessProfile (fun _ => false) witnessCatalog).2
    (by decide)


end Dicktaint
